import Mathlib

set_option autoImplicit false
set_option maxRecDepth 40000

/-!
# Verification of the `fsf` duplicate-file finder

A shallow embedding of `fsf.py`: the file system is modelled as an inductive
tree of named entries, file contents as byte lists, and every operation of the
module (`path_handler`, `subfiles`, `subdirs`, `subpaths`, `hash_from_path`,
`files_equal`, `get_duplicates`, `remove`, `remove_duplicates`) as an
executable Lean function.  Python exceptions are modelled with `Except`;
functions that mutate the file system return the new file system explicitly.
-/

namespace Fsf

/-! ## MD5 (the content hasher used by `hash_from_path` via `hashlib.md5`)

Bytes are `Nat`s below 256; all 32-bit arithmetic is done in `Nat` with
explicit reduction modulo `2 ^ 32`. -/

/-- Reduce modulo `2 ^ 32`. -/
def u32 (n : Nat) : Nat := n % 4294967296

/-- 32-bit left rotation (argument assumed below `2 ^ 32`). -/
def rotl32 (x s : Nat) : Nat := ((x <<< s) ||| (x >>> (32 - s))) % 4294967296

/-- The 64 MD5 sine-derived constants `K[i] = floor(2^32 * |sin (i+1)|)`. -/
def kTable : List Nat :=
  [0xd76aa478, 0xe8c7b756, 0x242070db, 0xc1bdceee,
   0xf57c0faf, 0x4787c62a, 0xa8304613, 0xfd469501,
   0x698098d8, 0x8b44f7af, 0xffff5bb1, 0x895cd7be,
   0x6b901122, 0xfd987193, 0xa679438e, 0x49b40821,
   0xf61e2562, 0xc040b340, 0x265e5a51, 0xe9b6c7aa,
   0xd62f105d, 0x02441453, 0xd8a1e681, 0xe7d3fbc8,
   0x21e1cde6, 0xc33707d6, 0xf4d50d87, 0x455a14ed,
   0xa9e3e905, 0xfcefa3f8, 0x676f02d9, 0x8d2a4c8a,
   0xfffa3942, 0x8771f681, 0x6d9d6122, 0xfde5380c,
   0xa4beea44, 0x4bdecfa9, 0xf6bb4b60, 0xbebfbc70,
   0x289b7ec6, 0xeaa127fa, 0xd4ef3085, 0x04881d05,
   0xd9d4d039, 0xe6db99e5, 0x1fa27cf8, 0xc4ac5665,
   0xf4292244, 0x432aff97, 0xab9423a7, 0xfc93a039,
   0x655b59c3, 0x8f0ccc92, 0xffeff47d, 0x85845dd1,
   0x6fa87e4f, 0xfe2ce6e0, 0xa3014314, 0x4e0811a1,
   0xf7537e82, 0xbd3af235, 0x2ad7d2bb, 0xeb86d391]

/-- The 64 MD5 per-round left-rotation amounts. -/
def sTable : List Nat :=
  [7, 12, 17, 22, 7, 12, 17, 22, 7, 12, 17, 22, 7, 12, 17, 22,
   5, 9, 14, 20, 5, 9, 14, 20, 5, 9, 14, 20, 5, 9, 14, 20,
   4, 11, 16, 23, 4, 11, 16, 23, 4, 11, 16, 23, 4, 11, 16, 23,
   6, 10, 15, 21, 6, 10, 15, 21, 6, 10, 15, 21, 6, 10, 15, 21]

/-- One of the 64 MD5 rounds on state `(a, b, c, d)` with message words `M`. -/
def md5step (M : List Nat) (st : Nat × Nat × Nat × Nat) (i : Nat) :
    Nat × Nat × Nat × Nat :=
  let (a, b, c, d) := st
  let f :=
    if i < 16 then (b &&& c) ||| ((b ^^^ 4294967295) &&& d)
    else if i < 32 then (d &&& b) ||| ((d ^^^ 4294967295) &&& c)
    else if i < 48 then b ^^^ c ^^^ d
    else c ^^^ (b ||| (d ^^^ 4294967295))
  let g :=
    if i < 16 then i
    else if i < 32 then (5 * i + 1) % 16
    else if i < 48 then (3 * i + 5) % 16
    else (7 * i) % 16
  let tmp := u32 (a + f + kTable.getD i 0 + M.getD g 0)
  (d, u32 (b + rotl32 tmp (sTable.getD i 0)), b, c)

/-- Process one 16-word chunk. -/
def md5chunk (st : Nat × Nat × Nat × Nat) (M : List Nat) :
    Nat × Nat × Nat × Nat :=
  let (a, b, c, d) := (List.range 64).foldl (md5step M) st
  (u32 (st.1 + a), u32 (st.2.1 + b), u32 (st.2.2.1 + c), u32 (st.2.2.2 + d))

/-- Little-endian 32-bit word from four bytes. -/
def leWord (b0 b1 b2 b3 : Nat) : Nat :=
  b0 + 256 * b1 + 65536 * b2 + 16777216 * b3

/-- Bytes (in groups of four, little-endian) to words. -/
def toWords : List Nat → List Nat
  | b0 :: b1 :: b2 :: b3 :: rest => leWord b0 b1 b2 b3 :: toWords rest
  | _ => []

/-- Words in groups of sixteen. -/
def group16 : List Nat → List (List Nat)
  | w0 :: w1 :: w2 :: w3 :: w4 :: w5 :: w6 :: w7 ::
    w8 :: w9 :: w10 :: w11 :: w12 :: w13 :: w14 :: w15 :: rest =>
      [w0, w1, w2, w3, w4, w5, w6, w7, w8, w9, w10, w11, w12, w13, w14, w15]
        :: group16 rest
  | _ => []

/-- Number of zero padding bytes after the `0x80` marker. -/
def padZeros (len : Nat) : Nat := (119 - len % 64) % 64

/-- The original bit length as eight little-endian bytes. -/
def lenBytes (len : Nat) : List Nat :=
  let bits := (8 * len) % 18446744073709551616
  [bits % 256, (bits >>> 8) % 256, (bits >>> 16) % 256, (bits >>> 24) % 256,
   (bits >>> 32) % 256, (bits >>> 40) % 256, (bits >>> 48) % 256,
   (bits >>> 56) % 256]

/-- MD5 padding: a `0x80` byte, zeros to 56 mod 64, then the bit length. -/
def md5pad (msg : List Nat) : List Nat :=
  msg ++ 128 :: (List.replicate (padZeros msg.length) 0 ++ lenBytes msg.length)

/-- The four final state words of MD5 over a byte list. -/
def md5digestWords (msg : List Nat) : Nat × Nat × Nat × Nat :=
  (group16 (toWords (md5pad msg))).foldl md5chunk
    (0x67452301, 0xefcdab89, 0x98badcfe, 0x10325476)

/-- A 32-bit word as four little-endian bytes. -/
def wordLE (w : Nat) : List Nat :=
  [w % 256, (w >>> 8) % 256, (w >>> 16) % 256, (w >>> 24) % 256]

/-- Lower-case hexadecimal digit. -/
def hexDigit (n : Nat) : Char :=
  if n < 10 then Char.ofNat (48 + n) else Char.ofNat (87 + n)

/-- A byte as two hexadecimal characters. -/
def byteHexChars (b : Nat) : List Char := [hexDigit (b / 16), hexDigit (b % 16)]

/-- `hashlib.md5(bytes).hexdigest()`: the 32-character lower-case hex digest. -/
def md5hex (msg : List Nat) : String :=
  let (a, b, c, d) := md5digestWords msg
  String.mk (([a, b, c, d].map wordLE).flatten.map byteHexChars).flatten

/-! ## The file-system model

A directory's contents are a sequence of named entries (regular files with
their byte content, and subdirectories), in `scandir` order.  Paths are lists
of name components, taken to be already resolved. -/

inductive FS where
  | nil : FS
  | file (name : String) (content : List Nat) (rest : FS) : FS
  | dir (name : String) (entries : FS) (rest : FS) : FS
  deriving DecidableEq, Repr

/-- The content of the regular file named `m` among the entries (first match). -/
def findFile : FS → String → Option (List Nat)
  | .nil, _ => none
  | .file n c rest, m => if n = m then some c else findFile rest m
  | .dir _ _ rest, m => findFile rest m

/-- The entries of the subdirectory named `m` (first match). -/
def findDir : FS → String → Option FS
  | .nil, _ => none
  | .file _ _ rest, m => findDir rest m
  | .dir n es rest, m => if n = m then some es else findDir rest m

/-- The content of the regular file at a component path, if any. -/
def lookupFile : FS → List String → Option (List Nat)
  | _, [] => none
  | d, [n] => findFile d n
  | d, n :: rest =>
    match findDir d n with
    | some d2 => lookupFile d2 rest
    | none => none

/-- The directory at a component path, if any. -/
def lookupDir : FS → List String → Option FS
  | d, [] => some d
  | d, n :: rest =>
    match findDir d n with
    | some d2 => lookupDir d2 rest
    | none => none

/-- The entry names of a directory, in order. -/
def namesOf : FS → List String
  | .nil => []
  | .file n _ rest => n :: namesOf rest
  | .dir n _ rest => n :: namesOf rest

/-- A real file system never lists two entries with the same name in one
directory. -/
def wellFormed : FS → Bool
  | .nil => true
  | .file n _ rest => decide (n ∉ namesOf rest) && wellFormed rest
  | .dir n es rest => decide (n ∉ namesOf rest) && wellFormed es && wellFormed rest

/-! ## Python values and exceptions

Python strings that denote paths are represented by their component lists, so
`Path(s)` keeps the representation.  `pdict` covers the digest-to-paths
dictionaries returned by `get_duplicates` (the only dicts the module handles).
`pother` stands for any value of an unsupported type. -/

inductive PyError where
  | notImplementedError
  | fileNotFoundError
  | attributeError
  | fileExistsError
  | typeError
  deriving DecidableEq, Repr

inductive PyVal where
  | pstr (comps : List String)
  | ppath (comps : List String)
  | plist (xs : List PyVal)
  | pdict (entries : List (String × List (List String)))
  | pother

/-! ## The fsf functions -/

/-- `path_handler`: a `Path` is returned unchanged, a string `s` becomes
`Path(s)`, anything else raises `NotImplementedError` (the spec's
UnsupportedTypeError). -/
def path_handler : PyVal → Except PyError PyVal
  | .ppath p => .ok (.ppath p)
  | .pstr s => .ok (.ppath s)
  | _ => .error .notImplementedError

/-- Component list of a path-like value. -/
def compsOf : PyVal → List String
  | .pstr s => s
  | .ppath p => p
  | _ => []

/-- `hash_from_path`: open the file, read all bytes, return the md5 hex
digest.  `open` on a missing path raises `FileNotFoundError` (the spec's
FileAccessError). -/
def hash_from_path (root : FS) (path : PyVal) : Except PyError String :=
  match path_handler path with
  | .error e => .error e
  | .ok p =>
    match lookupFile root (compsOf p) with
    | some c => .ok (md5hex c)
    | none => .error .fileNotFoundError

/-- `files_equal`: hash both files and compare the digests. -/
def files_equal (root : FS) (file1 file2 : PyVal) : Except PyError Bool :=
  match hash_from_path root file1 with
  | .error e => .error e
  | .ok h1 =>
    match hash_from_path root file2 with
    | .error e => .error e
    | .ok h2 => .ok (h1 == h2)

/-- `subfiles`: paths `direc / name` of the immediate regular files of the
directory `d` located at `direc`, in entry order. -/
def subfiles (d : FS) (direc : List String) : List (List String) :=
  match d with
  | .nil => []
  | .file n _ rest => (direc ++ [n]) :: subfiles rest direc
  | .dir _ _ rest => subfiles rest direc

/-- The immediate subdirectories with their names, in entry order. -/
def subdirsE : FS → List (String × FS)
  | .nil => []
  | .file _ _ rest => subdirsE rest
  | .dir n es rest => (n, es) :: subdirsE rest

/-- `subdirs`: paths `direc / name` of the immediate subdirectories. -/
def subdirs (d : FS) (direc : List String) : List (List String) :=
  (subdirsE d).map (fun nd => direc ++ [nd.1])

/-- The `for d in subdirs(direc): sf = chain(sf, subpaths(d))` loop of
`subpaths`: the files of every subdirectory subtree, one subdirectory after
the other; the recursive `subpaths` call is unfolded into
`subfiles ++ subpathsOfDirs` so that the recursion is structural. -/
def subpathsOfDirs : FS → List String → List (List String)
  | .nil, _ => []
  | .file _ _ rest, direc => subpathsOfDirs rest direc
  | .dir n es rest, direc =>
    (subfiles es (direc ++ [n]) ++ subpathsOfDirs es (direc ++ [n]))
      ++ subpathsOfDirs rest direc

/-- `subpaths`: every file at every depth beneath the directory `d` located at
`direc` — the immediate files first, then each subdirectory's subtree in
order. -/
def subpaths (d : FS) (direc : List String) : List (List String) :=
  subfiles d direc ++ subpathsOfDirs d direc

/-- `subpaths(p)` called on a path from `get_duplicates`: `scandir` raises
`FileNotFoundError` when the directory is missing. -/
def subpathsAt (root : FS) (p : List String) : Except PyError (List (List String)) :=
  match lookupDir root p with
  | some d => .ok (subpaths d p)
  | none => .error .fileNotFoundError

/-- The generator `(path for dir in dirs for path in subpaths(dir))`, fully
elaborated: each element goes through `path_handler` (inside `subpaths`) and
is scanned in turn. -/
def subpathsOfEach (root : FS) : List PyVal → Except PyError (List (List String))
  | [] => .ok []
  | v :: rest =>
    match path_handler v with
    | .error e => .error e
    | .ok p =>
      match subpathsAt root (compsOf p) with
      | .error e => .error e
      | .ok l =>
        match subpathsOfEach root rest with
        | .error e => .error e
        | .ok ls => .ok (l ++ ls)

/-- Digest-to-paths dictionaries, insertion ordered. -/
abbrev Groups := List (String × List (List String))

/-- `dict.get`. -/
def dictGet (dict : Groups) (h : String) : Option (List (List String)) :=
  match dict.find? (fun kv => kv.1 == h) with
  | some kv => some kv.2
  | none => none

/-- `dict.get(h).append(p)`: extend the path list registered for digest `h`
(keys are unique, so mapping over all entries updates exactly one). -/
def dictAppend (dict : Groups) (h : String) (p : List String) : Groups :=
  dict.map (fun kv => if kv.1 == h then (kv.1, kv.2 ++ [p]) else kv)

/-- The hashing loop of `get_duplicates`: accumulate each candidate path under
its digest; the first occurrence of a digest creates the entry (at the end of
the dict), later occurrences append.  A hashing failure aborts the pass. -/
def buildDict (root : FS) : List (List String) → Groups → Except PyError Groups
  | [], dict => .ok dict
  | p :: rest, dict =>
    match hash_from_path root (.ppath p) with
    | .error e => .error e
    | .ok h =>
      match dictGet dict h with
      | none => buildDict root rest (dict ++ [(h, [p])])
      | some _ => buildDict root rest (dictAppend dict h p)

/-- Hash all candidate paths and keep the entries with more than one path. -/
def hashPhase (root : FS) (pathsE : Except PyError (List (List String))) :
    Except PyError Groups :=
  match pathsE with
  | .error e => .error e
  | .ok paths =>
    match buildDict root paths [] with
    | .error e => .error e
    | .ok dict => .ok (dict.filter fun kvp => kvp.2.length > 1)

/-- Consume the exclude generator.  On the first path it yields, the loop body
runs `paths.remove(exc_path)`; `paths` is a generator or `chain` object, which
has no `remove` attribute, so that raises `AttributeError` — and the
surrounding `except ValueError` does not catch it.  An exclude set with no
files leaves `paths` untouched. -/
def excludeScan (root : FS) : List PyVal → Except PyError Unit
  | [] => .ok ()
  | v :: rest =>
    match path_handler v with
    | .error e => .error e
    | .ok p =>
      match subpathsAt root (compsOf p) with
      | .error e => .error e
      | .ok [] => excludeScan root rest
      | .ok (_ :: _) => .error .attributeError

/-- The exclude block of `get_duplicates` followed by the hashing loop:
`exclude` must be a `str` or a `list` (the source never tests
`isinstance(exclude, Path)`); if its traversal yields any path at all, the
loop body hits `paths.remove` on a generator and raises `AttributeError`. -/
def applyExclude (root : FS) (exclude : Option PyVal)
    (pathsE : Except PyError (List (List String))) : Except PyError Groups :=
  match exclude with
  | none => hashPhase root pathsE
  | some (.pstr p) =>
    match subpathsAt root p with
    | .error e => .error e
    | .ok [] => hashPhase root pathsE
    | .ok (_ :: _) => .error .attributeError
  | some (.plist xs) =>
    match excludeScan root xs with
    | .error e => .error e
    | .ok _ => hashPhase root pathsE
  | some _ => .error .notImplementedError

/-- `get_duplicates(include, exclude=None)`.  `include` may be a `Path`, a
`str` or a `list` (anything else raises `NotImplementedError`); for a single
path `subpaths` runs immediately, for a list the traversal is a generator
forced only by the hashing loop. -/
def get_duplicates (root : FS) (incl : PyVal) (exclude : Option PyVal) :
    Except PyError Groups :=
  match incl with
  | .ppath p =>
    match subpathsAt root p with
    | .error e => .error e
    | .ok paths => applyExclude root exclude (.ok paths)
  | .pstr p =>
    match subpathsAt root p with
    | .error e => .error e
    | .ok paths => applyExclude root exclude (.ok paths)
  | .plist xs => applyExclude root exclude (subpathsOfEach root xs)
  | _ => .error .notImplementedError

/-- Delete the file at a component path, keeping everything else. -/
def removeFile : FS → List String → Option FS
  | _, [] => none
  | .nil, _ => none
  | .file n c rest, [m] =>
    if n = m then some rest
    else (removeFile rest [m]).map (FS.file n c)
  | .dir n es rest, [m] => (removeFile rest [m]).map (FS.dir n es)
  | .file n c rest, m :: more => (removeFile rest (m :: more)).map (FS.file n c)
  | .dir n es rest, m :: more =>
    if n = m then (removeFile es more).map (fun es2 => FS.dir n es2 rest)
    else (removeFile rest (m :: more)).map (FS.dir n es)

/-- `os.remove`: deletes the file, or raises.  A missing path raises
`FileNotFoundError` (a directory raises `IsADirectoryError`; both propagate
identically through `remove`, so they are conflated here).  It never raises
`FileExistsError`. -/
def osRemove (root : FS) (p : List String) : Except PyError FS :=
  match removeFile root p with
  | some r => .ok r
  | none => .error .fileNotFoundError

/-- The deletion loop of `remove`: each path is attempted in turn; only a
`FileExistsError` would be recorded into `failed`, every other exception
propagates, keeping the deletions already performed. -/
def removeLoop (root : FS) : List PyVal → FS × Except PyError (List PyVal)
  | [] => (root, .ok [])
  | p :: rest =>
    match p with
    | .pstr comps | .ppath comps =>
      (match osRemove root comps with
       | .ok root2 => removeLoop root2 rest
       | .error e =>
         if e = .fileExistsError then
           match removeLoop root rest with
           | (r, .ok failed) => (r, .ok (p :: failed))
           | (r, .error e2) => (r, .error e2)
         else (root, .error e))
    | _ => (root, .error .typeError)

/-- `remove(paths)`: a single string is wrapped into a list; the argument is
then iterated — a dict iterates over its keys (the digest strings), and a
single `Path` object is not iterable, raising `TypeError`. -/
def remove (root : FS) (paths : PyVal) : FS × Except PyError (List PyVal) :=
  match paths with
  | .pstr s => removeLoop root [.pstr s]
  | .plist xs => removeLoop root xs
  | .pdict entries => removeLoop root (entries.map fun kv => .pstr [kv.1])
  | _ => (root, .error .typeError)

/-- `remove_duplicates(directory)`: `remove(get_duplicates(directory))` — the
dict returned by `get_duplicates` is handed to `remove` as is. -/
def remove_duplicates (root : FS) (directory : PyVal) :
    FS × Except PyError (List PyVal) :=
  match get_duplicates root directory none with
  | .error e => (root, .error e)
  | .ok groups => remove root (.pdict groups)

/-! ## Concrete file systems used for scenarios and witnesses -/

/-- The bytes of `"hello"`. -/
def hello : List Nat := [104, 101, 108, 108, 111]

/-- The bytes of `"world"`. -/
def world : List Nat := [119, 111, 114, 108, 100]

/-- `root/` with `a.txt` ("hello"), `b.txt` ("hello"), `c.txt` ("world") — the
spec's duplicate-group scenario. -/
def demoFS : FS :=
  .dir "root"
    (.file "a.txt" hello (.file "b.txt" hello (.file "c.txt" world .nil)))
    .nil

/-- `a/` with `x.txt` ("hello") and a subdirectory `sub/` holding `y.txt`
("hello") — the exclusion scenario. -/
def exclFS : FS :=
  .dir "a"
    (.file "x.txt" hello (.dir "sub" (.file "y.txt" hello .nil) .nil))
    .nil

/-- `root/` holding only `a.txt` — the `remove` scenario. -/
def removeFS : FS := .dir "root" (.file "a.txt" hello .nil) .nil

/-- Two sibling roots `r1/` and `r2/` holding byte-identical files — the
cross-root duplicate scenario. -/
def twoRootFS : FS :=
  .dir "r1" (.file "x.txt" hello .nil)
    (.dir "r2" (.file "y.txt" hello .nil) .nil)

/-! ## Sanity checks against the reference digests and the spec scenarios -/

example : md5hex [] = "d41d8cd98f00b204e9800998ecf8427e" := by decide

example : md5hex [97, 98, 99] = "900150983cd24fb0d6963f7d28e17f72" := by decide

example : md5hex [104, 101, 108, 108, 111] = "5d41402abc4b2a76b9719d911017c592" := by
  decide

example :
    subpathsAt demoFS ["root"] =
      .ok [["root", "a.txt"], ["root", "b.txt"], ["root", "c.txt"]] := by rfl

example :
    get_duplicates demoFS (.pstr ["root"]) none =
      .ok [(md5hex hello, [["root", "a.txt"], ["root", "b.txt"]])] := by rfl

example :
    get_duplicates exclFS (.pstr ["a"]) (some (.pstr ["a", "sub"])) =
      .error .attributeError := by rfl

example :
    get_duplicates exclFS (.pstr ["a"]) (some (.ppath ["a", "sub"])) =
      .error .notImplementedError := by rfl

example :
    remove removeFS
        (.plist [.pstr ["root", "a.txt"], .pstr ["root", "missing.txt"]]) =
      (.dir "root" .nil .nil, .error .fileNotFoundError) := by rfl

example :
    remove_duplicates demoFS (.pstr ["root"]) =
      (demoFS, .error .fileNotFoundError) := by rfl

/-! ## Lemmas: directory lookups and entry names -/

theorem findFile_mem_namesOf {d : FS} {m : String} {c : List Nat}
    (h : findFile d m = some c) : m ∈ namesOf d := by
  induction d with
  | nil => simp [findFile] at h
  | file n c0 rest ih =>
    rw [findFile] at h
    by_cases hn : n = m
    · simp [namesOf, hn]
    · rw [if_neg hn] at h
      exact List.mem_cons_of_mem _ (ih h)
  | dir n es rest ihes ihrest =>
    rw [findFile] at h
    exact List.mem_cons_of_mem _ (ihrest h)

theorem findDir_mem_namesOf {d : FS} {m : String} {es : FS}
    (h : findDir d m = some es) : m ∈ namesOf d := by
  induction d with
  | nil => simp [findDir] at h
  | file n c0 rest ih =>
    rw [findDir] at h
    exact List.mem_cons_of_mem _ (ih h)
  | dir n es0 rest ihes ihrest =>
    rw [findDir] at h
    by_cases hn : n = m
    · simp [namesOf, hn]
    · rw [if_neg hn] at h
      exact List.mem_cons_of_mem _ (ihrest h)

theorem lookupFile_head_mem {d : FS} {rel : List String} {c : List Nat}
    (h : lookupFile d rel = some c) : ∃ m more, rel = m :: more ∧ m ∈ namesOf d := by
  match rel with
  | [] => simp [lookupFile] at h
  | [m] =>
    exact ⟨m, [], rfl, findFile_mem_namesOf (by simpa [lookupFile] using h)⟩
  | m :: m2 :: more =>
    refine ⟨m, m2 :: more, rfl, ?_⟩
    simp only [lookupFile] at h
    cases hfd : findDir d m with
    | none => rw [hfd] at h; simp at h
    | some d2 => exact findDir_mem_namesOf hfd

theorem lookupFile_lift_file {n : String} {c0 : List Nat} {d : FS}
    {rel : List String} {c : List Nat} (hn : n ∉ namesOf d)
    (h : lookupFile d rel = some c) : lookupFile (FS.file n c0 d) rel = some c := by
  match rel with
  | [] => simp [lookupFile] at h
  | [m] =>
    have hm : findFile d m = some c := by simpa [lookupFile] using h
    have hne : n ≠ m := fun he => hn (he ▸ findFile_mem_namesOf hm)
    simp [lookupFile, findFile, hne, hm]
  | m :: m2 :: more =>
    simp only [lookupFile] at h ⊢
    rw [show findDir (FS.file n c0 d) m = findDir d m from rfl]
    exact h

theorem lookupFile_lift_dir {n : String} {es : FS} {d : FS}
    {rel : List String} {c : List Nat} (hn : n ∉ namesOf d)
    (h : lookupFile d rel = some c) : lookupFile (FS.dir n es d) rel = some c := by
  match rel with
  | [] => simp [lookupFile] at h
  | [m] =>
    have hm : findFile d m = some c := by simpa [lookupFile] using h
    simp [lookupFile, findFile, hm]
  | m :: m2 :: more =>
    simp only [lookupFile] at h ⊢
    cases hfd : findDir d m with
    | none => rw [hfd] at h; simp at h
    | some d2 =>
      rw [hfd] at h
      have hne : n ≠ m := fun he => hn (he ▸ findDir_mem_namesOf hfd)
      rw [show findDir (FS.dir n es d) m = findDir d m by simp [findDir, hne]]
      rw [hfd]
      exact h

theorem lookupFile_append {root d : FS} {pre rel : List String} {c : List Nat}
    (hd : lookupDir root pre = some d) (h : lookupFile d rel = some c) :
    lookupFile root (pre ++ rel) = some c := by
  induction pre generalizing root with
  | nil =>
    have : root = d := by simpa [lookupDir] using hd
    subst this
    simpa using h
  | cons n pre ih =>
    rw [lookupDir] at hd
    cases hfd : findDir root n with
    | none => rw [hfd] at hd; simp at hd
    | some r2 =>
      rw [hfd] at hd
      have htail : lookupFile r2 (pre ++ rel) = some c := ih hd
      obtain ⟨m, more, hrel, -⟩ := lookupFile_head_mem h
      cases hpr : pre ++ rel with
      | nil =>
        subst hrel
        simp at hpr
      | cons q qs =>
        have heq : (n :: pre) ++ rel = n :: q :: qs := by
          simp [hpr]
        rw [heq]
        simp only [lookupFile]
        rw [hfd, ← hpr]
        exact htail

theorem wellFormed_file_iff {n : String} {c : List Nat} {rest : FS} :
    wellFormed (FS.file n c rest) = true ↔
      n ∉ namesOf rest ∧ wellFormed rest = true := by
  simp [wellFormed]

theorem wellFormed_dir_iff {n : String} {es rest : FS} :
    wellFormed (FS.dir n es rest) = true ↔
      n ∉ namesOf rest ∧ wellFormed es = true ∧ wellFormed rest = true := by
  simp [wellFormed, and_assoc]

theorem wellFormed_findDir {d : FS} {m : String} {es : FS}
    (hw : wellFormed d = true) (h : findDir d m = some es) :
    wellFormed es = true := by
  induction d with
  | nil => simp [findDir] at h
  | file n c0 rest ih =>
    rw [findDir] at h
    exact ih (wellFormed_file_iff.mp hw).2 h
  | dir n es0 rest ihes ihrest =>
    rw [findDir] at h
    obtain ⟨-, hwe, hwr⟩ := wellFormed_dir_iff.mp hw
    by_cases hn : n = m
    · rw [if_pos hn] at h
      cases h
      exact hwe
    · rw [if_neg hn] at h
      exact ihrest hwr h

theorem wellFormed_lookupDir {root d : FS} {pre : List String}
    (hw : wellFormed root = true) (hd : lookupDir root pre = some d) :
    wellFormed d = true := by
  induction pre generalizing root with
  | nil =>
    have : root = d := by simpa [lookupDir] using hd
    exact this ▸ hw
  | cons n pre ih =>
    rw [lookupDir] at hd
    cases hfd : findDir root n with
    | none => rw [hfd] at hd; simp at hd
    | some r2 =>
      rw [hfd] at hd
      exact ih (wellFormed_findDir hw hfd) hd

/-! ## Lemmas: the tree walker -/

theorem subpaths_nil (direc : List String) : subpaths FS.nil direc = [] := rfl

theorem subpaths_file (n : String) (c : List Nat) (rest : FS)
    (direc : List String) :
    subpaths (FS.file n c rest) direc = (direc ++ [n]) :: subpaths rest direc := rfl

theorem subpaths_dir (n : String) (es rest : FS) (direc : List String) :
    subpaths (FS.dir n es rest) direc =
      subfiles rest direc ++
        (subpaths es (direc ++ [n]) ++ subpathsOfDirs rest direc) := rfl

theorem subpathsOfDirs_eq_flatten (d : FS) (direc : List String) :
    subpathsOfDirs d direc =
      ((subdirsE d).map fun nd => subpaths nd.2 (direc ++ [nd.1])).flatten := by
  induction d generalizing direc with
  | nil => rfl
  | file n c rest ih => simpa [subpathsOfDirs, subdirsE] using ih direc
  | dir n es rest ihes ihrest =>
    simp [subpathsOfDirs, subdirsE, subpaths, ihrest direc]

/-- The traversal order stated by the spec: all immediate files first, then
the full subtree of each subdirectory in turn. -/
theorem subpaths_preorder (d : FS) (direc : List String) :
    subpaths d direc =
      subfiles d direc ++
        ((subdirsE d).map fun nd => subpaths nd.2 (direc ++ [nd.1])).flatten := by
  rw [subpaths, subpathsOfDirs_eq_flatten]

theorem subpaths_complete {d : FS} {rel : List String} {c : List Nat}
    (h : lookupFile d rel = some c) (direc : List String) :
    (direc ++ rel) ∈ subpaths d direc := by
  induction d generalizing direc rel with
  | nil =>
    obtain ⟨m, more, hrel, hm⟩ := lookupFile_head_mem h
    simp [namesOf] at hm
  | file n c0 rest ih =>
    rw [subpaths_file]
    cases rel with
    | nil => simp [lookupFile] at h
    | cons m rel2 =>
      cases rel2 with
      | nil =>
        have hm : findFile (FS.file n c0 rest) m = some c := by
          simpa [lookupFile] using h
        rw [findFile] at hm
        by_cases hn : n = m
        · subst hn
          exact List.mem_cons_self _ _
        · rw [if_neg hn] at hm
          have h2 : lookupFile rest [m] = some c := by simpa [lookupFile] using hm
          exact List.mem_cons_of_mem _ (ih h2 direc)
      | cons m2 more =>
        simp only [lookupFile] at h
        have h2 : lookupFile rest (m :: m2 :: more) = some c := by
          simp only [lookupFile]
          exact h
        exact List.mem_cons_of_mem _ (ih h2 direc)
  | dir n es rest ihes ihrest =>
    rw [subpaths_dir]
    cases rel with
    | nil => simp [lookupFile] at h
    | cons m rel2 =>
      cases rel2 with
      | nil =>
        have hm : lookupFile rest [m] = some c := by
          simpa [lookupFile, findFile] using h
        have hmem := ihrest hm direc
        rcases List.mem_append.mp hmem with hx | hz
        · exact List.mem_append.mpr (Or.inl hx)
        · exact List.mem_append.mpr (Or.inr (List.mem_append.mpr (Or.inr hz)))
      | cons m2 more =>
        simp only [lookupFile] at h
        by_cases hn : n = m
        · have hfd : findDir (FS.dir n es rest) m = some es := by
            simp [findDir, hn]
          rw [hfd] at h
          have hmem := ihes h (direc ++ [n])
          have heq : (direc ++ [n]) ++ (m2 :: more) = direc ++ m :: m2 :: more := by
            simp [hn]
          rw [heq] at hmem
          exact List.mem_append.mpr (Or.inr (List.mem_append.mpr (Or.inl hmem)))
        · have hfd : findDir (FS.dir n es rest) m = findDir rest m := by
            simp [findDir, hn]
          rw [hfd] at h
          have h2 : lookupFile rest (m :: m2 :: more) = some c := by
            simp only [lookupFile]
            exact h
          have hmem := ihrest h2 direc
          rcases List.mem_append.mp hmem with hx | hz
          · exact List.mem_append.mpr (Or.inl hx)
          · exact List.mem_append.mpr (Or.inr (List.mem_append.mpr (Or.inr hz)))

theorem subpaths_sound {d : FS} {direc p : List String}
    (hw : wellFormed d = true) (hp : p ∈ subpaths d direc) :
    ∃ rel c, p = direc ++ rel ∧ lookupFile d rel = some c := by
  induction d generalizing direc with
  | nil => simp [subpaths, subfiles, subpathsOfDirs] at hp
  | file n c0 rest ih =>
    rw [subpaths_file] at hp
    obtain ⟨hn, hwr⟩ := wellFormed_file_iff.mp hw
    rcases List.mem_cons.mp hp with he | hm
    · exact ⟨[n], c0, he, by simp [lookupFile, findFile]⟩
    · obtain ⟨rel, c, hpe, hlk⟩ := ih hwr hm
      exact ⟨rel, c, hpe, lookupFile_lift_file hn hlk⟩
  | dir n es rest ihes ihrest =>
    rw [subpaths_dir] at hp
    obtain ⟨hn, hwe, hwr⟩ := wellFormed_dir_iff.mp hw
    rcases List.mem_append.mp hp with hA | hBC
    · have hmem : p ∈ subpaths rest direc := List.mem_append.mpr (Or.inl hA)
      obtain ⟨rel, c, hpe, hlk⟩ := ihrest hwr hmem
      exact ⟨rel, c, hpe, lookupFile_lift_dir hn hlk⟩
    · rcases List.mem_append.mp hBC with hB | hC
      · obtain ⟨rel, c, hpe, hlk⟩ := ihes hwe hB
        obtain ⟨m, more, hrel, -⟩ := lookupFile_head_mem hlk
        refine ⟨n :: rel, c, by simp [hpe], ?_⟩
        subst hrel
        simp only [lookupFile]
        rw [show findDir (FS.dir n es rest) n = some es by simp [findDir]]
        exact hlk
      · have hmem : p ∈ subpaths rest direc := List.mem_append.mpr (Or.inr hC)
        obtain ⟨rel, c, hpe, hlk⟩ := ihrest hwr hmem
        exact ⟨rel, c, hpe, lookupFile_lift_dir hn hlk⟩

theorem subpaths_nodup {d : FS} (direc : List String)
    (hw : wellFormed d = true) : (subpaths d direc).Nodup := by
  induction d generalizing direc with
  | nil => simp [subpaths, subfiles, subpathsOfDirs]
  | file n c0 rest ih =>
    rw [subpaths_file]
    obtain ⟨hn, hwr⟩ := wellFormed_file_iff.mp hw
    refine List.nodup_cons.mpr ⟨?_, ih direc hwr⟩
    intro hmem
    obtain ⟨rel, c, hpe, hlk⟩ := subpaths_sound hwr hmem
    have hrel : [n] = rel := List.append_cancel_left hpe
    rw [← hrel] at hlk
    have : findFile rest n = some c := by simpa [lookupFile] using hlk
    exact hn (findFile_mem_namesOf this)
  | dir n es rest ihes ihrest =>
    rw [subpaths_dir]
    obtain ⟨hn, hwe, hwr⟩ := wellFormed_dir_iff.mp hw
    have hAC : (subfiles rest direc ++ subpathsOfDirs rest direc).Nodup := by
      have := ihrest direc hwr
      rwa [subpaths] at this
    have hB : (subpaths es (direc ++ [n])).Nodup := ihes _ hwe
    have hdisj : ∀ p, p ∈ subpaths es (direc ++ [n]) →
        p ∈ subfiles rest direc ++ subpathsOfDirs rest direc → False := by
      intro p hpB hpAC
      have hpR : p ∈ subpaths rest direc := by rwa [subpaths]
      obtain ⟨rel, c, hpe, hlk⟩ := subpaths_sound hwr hpR
      obtain ⟨relB, cB, hpeB, hlkB⟩ := subpaths_sound hwe hpB
      have hreq : rel = n :: relB := by
        have heq2 : direc ++ rel = direc ++ (n :: relB) := by
          rw [← hpe, hpeB]
          simp
        exact List.append_cancel_left heq2
      obtain ⟨m, more, hrel, hmem⟩ := lookupFile_head_mem hlk
      rw [hreq] at hrel
      cases hrel
      exact hn hmem
    obtain ⟨hA, hC, hACd⟩ := List.nodup_append.mp hAC
    refine List.nodup_append.mpr ⟨hA, List.nodup_append.mpr ⟨hB, hC, ?_⟩, ?_⟩
    · intro p hpB hpC
      exact hdisj p hpB (List.mem_append.mpr (Or.inr hpC))
    · intro p hpA hpBC
      rcases List.mem_append.mp hpBC with hpB | hpC
      · exact hdisj p hpB (List.mem_append.mpr (Or.inl hpA))
      · exact hACd hpA hpC

/-! ## Lemmas: the duplicate grouper -/

theorem dictGet_eq_some_mem {dict : Groups} {key : String} {l : List (List String)}
    (hg : dictGet dict key = some l) : (key, l) ∈ dict := by
  unfold dictGet at hg
  cases hf : List.find? (fun kv => kv.1 == key) dict with
  | none => rw [hf] at hg; exact absurd hg (by simp)
  | some kv =>
    rw [hf] at hg
    injection hg with hg2
    have h1 : kv.1 = key := by simpa using List.find?_some hf
    have h2 : kv = (key, l) := by
      cases kv
      simp_all
    rw [← h2]
    exact List.mem_of_find?_eq_some hf

theorem dictGet_append_left {dict : Groups} {key : String} {l : List (List String)}
    (tail : Groups) (hg : dictGet dict key = some l) :
    dictGet (dict ++ tail) key = some l := by
  induction dict with
  | nil => simp [dictGet] at hg
  | cons kv rest ih =>
    by_cases hk : kv.1 == key
    · simpa [dictGet, List.find?, hk] using hg
    · rw [show dictGet (kv :: rest) key = dictGet rest key by
        simp [dictGet, List.find?, hk]] at hg
      rw [show dictGet ((kv :: rest) ++ tail) key = dictGet (rest ++ tail) key by
        simp [dictGet, List.find?, hk]]
      exact ih hg

theorem dictGet_append_new {dict : Groups} {key : String}
    (entry : List (List String)) (hg : dictGet dict key = none) :
    dictGet (dict ++ [(key, entry)]) key = some entry := by
  induction dict with
  | nil => simp [dictGet, List.find?]
  | cons kv rest ih =>
    by_cases hk : kv.1 == key
    · simp [dictGet, List.find?, hk] at hg
    · rw [show dictGet (kv :: rest) key = dictGet rest key by
        simp [dictGet, List.find?, hk]] at hg
      rw [show dictGet ((kv :: rest) ++ [(key, entry)]) key
            = dictGet (rest ++ [(key, entry)]) key by
        simp [dictGet, List.find?, hk]]
      exact ih hg

theorem dictGet_dictAppend {dict : Groups} {key : String} {l : List (List String)}
    (key2 : String) (p : List String) (hg : dictGet dict key = some l) :
    dictGet (dictAppend dict key2 p) key =
      some (if key2 = key then l ++ [p] else l) := by
  induction dict with
  | nil => simp [dictGet] at hg
  | cons kv rest ih =>
    by_cases hk : kv.1 == key
    · have hkey : kv.1 = key := by simpa using hk
      have hl : kv.2 = l := by simpa [dictGet, List.find?, hk] using hg
      by_cases h2 : kv.1 == key2
      · have hkey2 : kv.1 = key2 := by simpa using h2
        have heq : key2 = key := hkey2 ▸ hkey
        simp [dictAppend, dictGet, List.find?, h2, hk, heq, hl]
      · have hne : ¬key2 = key := fun he => by
          rw [he, hkey] at h2
          simp at h2
        simp [dictAppend, dictGet, List.find?, h2, hk, hne, hl]
    · rw [show dictGet (kv :: rest) key = dictGet rest key by
        simp [dictGet, List.find?, hk]] at hg
      have ih2 := ih hg
      by_cases h2 : kv.1 == key2
      · simpa [dictAppend, dictGet, List.find?, h2, hk] using ih2
      · simpa [dictAppend, dictGet, List.find?, h2, hk] using ih2

theorem buildDict_mono {root : FS} {paths : List (List String)}
    {dict final : Groups} {key : String} {l : List (List String)}
    (hb : buildDict root paths dict = .ok final)
    (hg : dictGet dict key = some l) :
    ∃ l2, dictGet final key = some (l ++ l2) := by
  induction paths generalizing dict l with
  | nil =>
    simp only [buildDict] at hb
    cases hb
    exact ⟨[], by simpa using hg⟩
  | cons q rest ih =>
    simp only [buildDict] at hb
    cases hhq : hash_from_path root (.ppath q) with
    | error e => rw [hhq] at hb; simp at hb
    | ok hq =>
      rw [hhq] at hb
      dsimp only at hb
      cases hgq : dictGet dict hq with
      | none =>
        rw [hgq] at hb
        dsimp only at hb
        exact ih hb (dictGet_append_left _ hg)
      | some lold =>
        rw [hgq] at hb
        dsimp only at hb
        have hg2 := dictGet_dictAppend hq q hg
        by_cases he : hq = key
        · rw [if_pos he] at hg2
          obtain ⟨l2, hl2⟩ := ih hb hg2
          exact ⟨[q] ++ l2, by simpa [List.append_assoc] using hl2⟩
        · rw [if_neg he] at hg2
          exact ih hb hg2

theorem buildDict_mem {root : FS} {paths : List (List String)}
    {dict final : Groups} {p : List String} {key : String}
    (hb : buildDict root paths dict = .ok final) (hp : p ∈ paths)
    (hh : hash_from_path root (.ppath p) = .ok key) :
    ∃ l, dictGet final key = some l ∧ p ∈ l := by
  induction paths generalizing dict with
  | nil => simp at hp
  | cons q rest ih =>
    simp only [buildDict] at hb
    cases hhq : hash_from_path root (.ppath q) with
    | error e => rw [hhq] at hb; simp at hb
    | ok hq =>
      rw [hhq] at hb
      dsimp only at hb
      rcases List.mem_cons.mp hp with he | hrest
      · subst he
        rw [hh] at hhq
        injection hhq with hkq
        subst hkq
        cases hgq : dictGet dict key with
        | none =>
          rw [hgq] at hb
          dsimp only at hb
          have hnew : dictGet (dict ++ [(key, [p])]) key = some [p] :=
            dictGet_append_new _ hgq
          obtain ⟨l2, hl2⟩ := buildDict_mono hb hnew
          exact ⟨[p] ++ l2, hl2, by simp⟩
        | some lold =>
          rw [hgq] at hb
          dsimp only at hb
          have happ := dictGet_dictAppend key p hgq
          rw [if_pos rfl] at happ
          obtain ⟨l2, hl2⟩ := buildDict_mono hb happ
          exact ⟨(lold ++ [p]) ++ l2, hl2, by simp⟩
      · cases hgq : dictGet dict hq with
        | none =>
          rw [hgq] at hb
          dsimp only at hb
          exact ih hb hrest
        | some lold =>
          rw [hgq] at hb
          dsimp only at hb
          exact ih hb hrest

theorem buildDict_consistent {root : FS} {paths : List (List String)}
    {dict final : Groups}
    (hb : buildDict root paths dict = .ok final)
    (hinv : ∀ kv ∈ dict, ∀ p ∈ kv.2, hash_from_path root (.ppath p) = .ok kv.1) :
    ∀ kv ∈ final, ∀ p ∈ kv.2, hash_from_path root (.ppath p) = .ok kv.1 := by
  induction paths generalizing dict with
  | nil =>
    simp only [buildDict] at hb
    cases hb
    exact hinv
  | cons q rest ih =>
    simp only [buildDict] at hb
    cases hhq : hash_from_path root (.ppath q) with
    | error e => rw [hhq] at hb; simp at hb
    | ok hq =>
      rw [hhq] at hb
      dsimp only at hb
      cases hgq : dictGet dict hq with
      | none =>
        rw [hgq] at hb
        dsimp only at hb
        refine ih hb ?_
        intro kv hkv p hp
        rcases List.mem_append.mp hkv with h1 | h2
        · exact hinv kv h1 p hp
        · have hkve : kv = (hq, [q]) := by simpa using h2
          subst hkve
          have hpq : p = q := by simpa using hp
          subst hpq
          exact hhq
      | some lold =>
        rw [hgq] at hb
        dsimp only at hb
        refine ih hb ?_
        intro kv hkv p hp
        unfold dictAppend at hkv
        obtain ⟨kv0, hkv0, hfe⟩ := List.mem_map.mp hkv
        by_cases hk : kv0.1 == hq
        · rw [if_pos hk] at hfe
          subst hfe
          rcases List.mem_append.mp hp with hp1 | hp2
          · exact hinv kv0 hkv0 p hp1
          · have hpq : p = q := by simpa using hp2
            subst hpq
            have hkey : kv0.1 = hq := by simpa using hk
            simpa [hkey] using hhq
        · rw [if_neg hk] at hfe
          subst hfe
          exact hinv kv0 hkv0 p hp

theorem buildDict_ok {root : FS} {paths : List (List String)}
    (hall : ∀ p ∈ paths, ∃ c, lookupFile root p = some c) (dict : Groups) :
    ∃ final, buildDict root paths dict = .ok final := by
  induction paths generalizing dict with
  | nil => exact ⟨dict, rfl⟩
  | cons q rest ih =>
    obtain ⟨c, hc⟩ := hall q (List.mem_cons_self _ _)
    have hh : hash_from_path root (.ppath q) = .ok (md5hex c) := by
      simp [hash_from_path, path_handler, compsOf, hc]
    have hall2 : ∀ p ∈ rest, ∃ c2, lookupFile root p = some c2 := fun p hp =>
      hall p (List.mem_cons_of_mem _ hp)
    simp only [buildDict, hh]
    cases hgq : dictGet dict (md5hex c) with
    | none => exact ih hall2 _
    | some lold => exact ih hall2 _

theorem applyExclude_ok_hashPhase {root : FS} {exclude : Option PyVal}
    {pe : Except PyError (List (List String))} {groups : Groups}
    (h : applyExclude root exclude pe = .ok groups) :
    hashPhase root pe = .ok groups := by
  cases exclude with
  | none => exact h
  | some e =>
    cases e with
    | pstr p =>
      simp only [applyExclude] at h
      cases hs : subpathsAt root p with
      | error e2 => rw [hs] at h; simp at h
      | ok l =>
        rw [hs] at h
        cases l with
        | nil => exact h
        | cons a t => simp at h
    | plist xs =>
      simp only [applyExclude] at h
      cases hs : excludeScan root xs with
      | error e2 => rw [hs] at h; simp at h
      | ok u => rw [hs] at h; exact h
    | ppath p => simp [applyExclude] at h
    | pdict d2 => simp [applyExclude] at h
    | pother => simp [applyExclude] at h

theorem hashPhase_ok_elim {root : FS} {pe : Except PyError (List (List String))}
    {groups : Groups} (h : hashPhase root pe = .ok groups) :
    ∃ paths dict, pe = .ok paths ∧ buildDict root paths [] = .ok dict ∧
      groups = dict.filter fun kvp => kvp.2.length > 1 := by
  cases pe with
  | error e => simp [hashPhase] at h
  | ok paths =>
    simp only [hashPhase] at h
    cases hb : buildDict root paths [] with
    | error e => rw [hb] at h; simp at h
    | ok dict =>
      rw [hb] at h
      dsimp only at h
      cases h
      exact ⟨paths, dict, rfl, hb, rfl⟩

theorem get_duplicates_ok_hashPhase {root : FS} {incl : PyVal}
    {exclude : Option PyVal} {groups : Groups}
    (h : get_duplicates root incl exclude = .ok groups) :
    ∃ pe, hashPhase root pe = .ok groups := by
  cases incl with
  | ppath p =>
    simp only [get_duplicates] at h
    cases hs : subpathsAt root p with
    | error e => rw [hs] at h; simp at h
    | ok paths =>
      rw [hs] at h
      dsimp only at h
      exact ⟨_, applyExclude_ok_hashPhase h⟩
  | pstr p =>
    simp only [get_duplicates] at h
    cases hs : subpathsAt root p with
    | error e => rw [hs] at h; simp at h
    | ok paths =>
      rw [hs] at h
      dsimp only at h
      exact ⟨_, applyExclude_ok_hashPhase h⟩
  | plist xs =>
    simp only [get_duplicates] at h
    exact ⟨_, applyExclude_ok_hashPhase h⟩
  | pdict d2 => simp [get_duplicates] at h
  | pother => simp [get_duplicates] at h

theorem two_mem_le_length {α : Type} {l : List α} {x y : α}
    (hxy : x ≠ y) (hx : x ∈ l) (hy : y ∈ l) : 2 ≤ l.length := by
  cases l with
  | nil => simp at hx
  | cons a t =>
    cases t with
    | nil =>
      have hx2 : x = a := by simpa using hx
      have hy2 : y = a := by simpa using hy
      exact absurd (hx2.trans hy2.symm) hxy
    | cons b t2 =>
      simp [List.length_cons]

/-- Every path the traversal yields names an existing regular file whose
content the hasher can read. -/
theorem subpaths_hashable {root d : FS} {pre : List String}
    (hw : wellFormed root = true) (hd : lookupDir root pre = some d) :
    ∀ p ∈ subpaths d pre, ∃ c, lookupFile root p = some c := by
  intro p hp
  obtain ⟨rel, c, hpe, hlk⟩ := subpaths_sound (wellFormed_lookupDir hw hd) hp
  subst hpe
  exact ⟨c, lookupFile_append hd hlk⟩

/-! ## The claims -/

/-- **C1** (the code contradicts this): with `include = "a"` and
`exclude = "a/sub"`, where `a/sub` holds the file `y.txt`, `get_duplicates`
does not filter the excluded paths out of the candidate set — the candidate
`paths` object is a generator/chain with no `remove` method, so the first
excluded path raises `AttributeError`, which the `except ValueError` clause
does not catch. -/
theorem c1_exclude_raises_attribute_error :
    lookupFile exclFS ["a", "sub", "y.txt"] = some hello ∧
    get_duplicates exclFS (.pstr ["a"]) (some (.pstr ["a", "sub"])) =
      .error .attributeError :=
  ⟨rfl, rfl⟩

/-- **C2** (the code contradicts this): `remove_duplicates` hands the
digest-to-paths dict itself to `remove`, which iterates over the digest keys
instead of the grouped paths: on `root/` with duplicates `a.txt`/`b.txt` it
deletes no file at all and raises `FileNotFoundError` from
`os.remove(digest)`. -/
theorem c2_remove_duplicates_iterates_keys :
    get_duplicates demoFS (.pstr ["root"]) none =
      .ok [(md5hex hello, [["root", "a.txt"], ["root", "b.txt"]])] ∧
    remove_duplicates demoFS (.pstr ["root"]) =
      (demoFS, .error .fileNotFoundError) :=
  ⟨rfl, rfl⟩

/-- **C3** (the code contradicts this): `remove(["root/a.txt",
"root/missing.txt"])` with only `a.txt` existing deletes `a.txt`, but then
raises `FileNotFoundError` on the missing path instead of recording it and
returning `["root/missing.txt"]`: the loop catches only `FileExistsError`,
which `os.remove` never raises. -/
theorem c3_remove_raises_on_missing :
    remove removeFS
        (.plist [.pstr ["root", "a.txt"], .pstr ["root", "missing.txt"]]) =
      (.dir "root" .nil .nil, .error .fileNotFoundError) :=
  rfl

/-- **C4**: for a well-formed directory `d` at path `direc`, `subpaths` yields
exactly the regular files reachable at any depth (no omissions, and no
duplicates), in pre-order with the immediate files before the subdirectory
subtrees; a directory with no entries yields the empty sequence. -/
theorem c4_subpaths_exact_nodup_preorder (d : FS) (direc : List String)
    (hw : wellFormed d = true) :
    (∀ p, p ∈ subpaths d direc ↔
      ∃ rel c, p = direc ++ rel ∧ lookupFile d rel = some c)
    ∧ (subpaths d direc).Nodup
    ∧ subpaths d direc =
        subfiles d direc ++
          ((subdirsE d).map fun nd => subpaths nd.2 (direc ++ [nd.1])).flatten
    ∧ subpaths FS.nil direc = [] := by
  refine ⟨fun p => ⟨fun hp => subpaths_sound hw hp, ?_⟩,
    subpaths_nodup direc hw, subpaths_preorder d direc, rfl⟩
  rintro ⟨rel, c, hpe, hlk⟩
  subst hpe
  exact subpaths_complete hlk direc

theorem c4_witness :
    wellFormed demoFS = true ∧ (subpaths demoFS []).Nodup ∧
      subpaths FS.nil [] = [] :=
  ⟨by decide, (c4_subpaths_exact_nodup_preorder demoFS [] (by decide)).2.1,
    (c4_subpaths_exact_nodup_preorder demoFS [] (by decide)).2.2.2⟩

/-- **C5**: whenever `get_duplicates` returns normally, every entry of the
returned mapping holds at least two paths. -/
theorem c5_groups_min_size {root : FS} {incl : PyVal} {exclude : Option PyVal}
    {groups : Groups} (h : get_duplicates root incl exclude = .ok groups) :
    ∀ kv ∈ groups, 2 ≤ kv.2.length := by
  obtain ⟨pe, hph⟩ := get_duplicates_ok_hashPhase h
  obtain ⟨paths, dict, -, -, hg⟩ := hashPhase_ok_elim hph
  subst hg
  intro kv hkv
  have h2 := (List.mem_filter.mp hkv).2
  have h3 : 1 < kv.2.length := by simpa using h2
  omega

theorem c5_witness :
    get_duplicates demoFS (.pstr ["root"]) none =
      .ok [(md5hex hello, [["root", "a.txt"], ["root", "b.txt"]])] ∧
    ∀ kv ∈ [(md5hex hello, [["root", "a.txt"], ["root", "b.txt"]])],
      2 ≤ kv.2.length :=
  ⟨rfl, @c5_groups_min_size demoFS (.pstr ["root"]) none
    [(md5hex hello, [["root", "a.txt"], ["root", "b.txt"]])] rfl⟩

/-- **C6**: two files with byte-identical content hash identically regardless
of path, `files_equal` holds on them, and in general `files_equal` returns
true exactly when the two digests coincide. -/
theorem c6_hash_content_files_equal {root : FS} {f1 f2 : List String}
    {c : List Nat} (h1 : lookupFile root f1 = some c)
    (h2 : lookupFile root f2 = some c) :
    hash_from_path root (.ppath f1) = hash_from_path root (.ppath f2) ∧
    files_equal root (.ppath f1) (.ppath f2) = .ok true ∧
    ∀ (a b : PyVal) (ha hb : String), hash_from_path root a = .ok ha →
      hash_from_path root b = .ok hb →
      (files_equal root a b = .ok true ↔ ha = hb) := by
  refine ⟨?_, ?_, ?_⟩
  · simp [hash_from_path, path_handler, compsOf, h1, h2]
  · simp [files_equal, hash_from_path, path_handler, compsOf, h1, h2]
  · intro a b ha hb hha hhb
    simp [files_equal, hha, hhb]

theorem c6_witness :
    lookupFile demoFS ["root", "a.txt"] = some hello ∧
    lookupFile demoFS ["root", "b.txt"] = some hello ∧
    files_equal demoFS (.ppath ["root", "a.txt"]) (.ppath ["root", "b.txt"]) =
      .ok true :=
  ⟨rfl, rfl,
    (@c6_hash_content_files_equal demoFS ["root", "a.txt"] ["root", "b.txt"]
      hello rfl rfl).2.1⟩

/-- **C7**: with a list include, the candidate set is the concatenation of the
traversals of all the roots, and a pair of byte-identical files lying under
two different roots ends up together in one returned duplicate group. -/
theorem c7_cross_root_duplicates {root da db : FS} {a b pa pb : List String}
    {c : List Nat} (hw : wellFormed root = true)
    (hA : lookupDir root a = some da) (hB : lookupDir root b = some db)
    (hpa : pa ∈ subpaths da a) (hpb : pb ∈ subpaths db b) (hne : pa ≠ pb)
    (hca : lookupFile root pa = some c) (hcb : lookupFile root pb = some c) :
    ∃ groups,
      get_duplicates root (.plist [.pstr a, .pstr b]) none = .ok groups ∧
      subpathsOfEach root [.pstr a, .pstr b] =
        .ok (subpaths da a ++ (subpaths db b ++ [])) ∧
      ∃ kv, kv ∈ groups ∧ pa ∈ kv.2 ∧ pb ∈ kv.2 := by
  have hcand : subpathsOfEach root [.pstr a, .pstr b] =
      .ok (subpaths da a ++ (subpaths db b ++ [])) := by
    simp [subpathsOfEach, path_handler, compsOf, subpathsAt, hA, hB]
  have hall : ∀ p ∈ subpaths da a ++ (subpaths db b ++ []),
      ∃ c2, lookupFile root p = some c2 := by
    intro p hp
    rcases List.mem_append.mp hp with hx | hy
    · exact subpaths_hashable hw hA p hx
    · rcases List.mem_append.mp hy with hz | hv
      · exact subpaths_hashable hw hB p hz
      · simp at hv
  obtain ⟨dict, hbd⟩ := buildDict_ok hall []
  have hgd : get_duplicates root (.plist [.pstr a, .pstr b]) none =
      .ok (dict.filter fun kvp => kvp.2.length > 1) := by
    simp only [get_duplicates, applyExclude, hcand, hashPhase, hbd]
  have hhash_a : hash_from_path root (.ppath pa) = .ok (md5hex c) := by
    simp [hash_from_path, path_handler, compsOf, hca]
  have hhash_b : hash_from_path root (.ppath pb) = .ok (md5hex c) := by
    simp [hash_from_path, path_handler, compsOf, hcb]
  have hmema : pa ∈ subpaths da a ++ (subpaths db b ++ []) :=
    List.mem_append.mpr (Or.inl hpa)
  have hmemb : pb ∈ subpaths da a ++ (subpaths db b ++ []) :=
    List.mem_append.mpr (Or.inr (List.mem_append.mpr (Or.inl hpb)))
  obtain ⟨l, hgl, hpal⟩ := buildDict_mem hbd hmema hhash_a
  obtain ⟨l2, hgl2, hpbl⟩ := buildDict_mem hbd hmemb hhash_b
  rw [hgl] at hgl2
  injection hgl2 with hll
  subst hll
  have hlen : 2 ≤ l.length := two_mem_le_length hne hpal hpbl
  refine ⟨_, hgd, hcand, ⟨(md5hex c, l), ?_, hpal, hpbl⟩⟩
  refine List.mem_filter.mpr ⟨dictGet_eq_some_mem hgl, ?_⟩
  simpa using hlen

theorem c7_witness :
    wellFormed twoRootFS = true ∧
    ∃ groups,
      get_duplicates twoRootFS (.plist [.pstr ["r1"], .pstr ["r2"]]) none =
        .ok groups ∧
      subpathsOfEach twoRootFS [.pstr ["r1"], .pstr ["r2"]] =
        .ok (subpaths (FS.file "x.txt" hello FS.nil) ["r1"] ++
          (subpaths (FS.file "y.txt" hello FS.nil) ["r2"] ++ [])) ∧
      ∃ kv, kv ∈ groups ∧ ["r1", "x.txt"] ∈ kv.2 ∧ ["r2", "y.txt"] ∈ kv.2 :=
  ⟨by decide,
    @c7_cross_root_duplicates twoRootFS (FS.file "x.txt" hello FS.nil)
      (FS.file "y.txt" hello FS.nil) ["r1"] ["r2"] ["r1", "x.txt"]
      ["r2", "y.txt"] hello (by decide) rfl rfl (by decide) (by decide)
      (by decide) rfl rfl⟩

/-- **C8** (the code contradicts its own signature): unsupported shapes for
`include` or `exclude` do raise `NotImplementedError`, but `exclude` does not
accept the same two shapes as `include`: the very `Path` value that is
accepted as `include` raises `NotImplementedError` when passed as
`exclude`. -/
theorem c8_exclude_rejects_path :
    get_duplicates exclFS (.ppath ["a", "sub"]) none = .ok [] ∧
    get_duplicates exclFS (.pstr ["a"]) (some (.ppath ["a", "sub"])) =
      .error .notImplementedError ∧
    get_duplicates exclFS .pother none = .error .notImplementedError ∧
    get_duplicates exclFS (.pstr ["a"]) (some .pother) =
      .error .notImplementedError :=
  ⟨rfl, rfl, rfl, rfl⟩

/-- **C9**: in a returned mapping, every path listed under a digest hashes to
exactly that digest, and the path lists of distinct digests are disjoint. -/
theorem c9_groups_hash_consistent {root : FS} {incl : PyVal}
    {exclude : Option PyVal} {groups : Groups}
    (h : get_duplicates root incl exclude = .ok groups) :
    (∀ kv ∈ groups, ∀ p ∈ kv.2, hash_from_path root (.ppath p) = .ok kv.1) ∧
    ∀ kv1 ∈ groups, ∀ kv2 ∈ groups, kv1.1 ≠ kv2.1 →
      ∀ p, p ∈ kv1.2 → p ∉ kv2.2 := by
  obtain ⟨pe, hph⟩ := get_duplicates_ok_hashPhase h
  obtain ⟨paths, dict, -, hbd, hg⟩ := hashPhase_ok_elim hph
  subst hg
  have hcons := buildDict_consistent hbd (by intro kv hkv; simp at hkv)
  have hc2 : ∀ kv ∈ dict.filter (fun kvp => kvp.2.length > 1), ∀ p ∈ kv.2,
      hash_from_path root (.ppath p) = .ok kv.1 := by
    intro kv hkv
    exact hcons kv (List.mem_filter.mp hkv).1
  refine ⟨hc2, ?_⟩
  intro kv1 h1 kv2 h2 hne p hp1 hp2
  have e1 := hc2 kv1 h1 p hp1
  have e2 := hc2 kv2 h2 p hp2
  rw [e1] at e2
  injection e2 with he
  exact hne he

theorem c9_witness :
    get_duplicates demoFS (.pstr ["root"]) none =
      .ok [(md5hex hello, [["root", "a.txt"], ["root", "b.txt"]])] ∧
    ∀ kv ∈ [(md5hex hello, [["root", "a.txt"], ["root", "b.txt"]])],
      ∀ p ∈ kv.2, hash_from_path demoFS (.ppath p) = .ok kv.1 :=
  ⟨rfl, (@c9_groups_hash_consistent demoFS (.pstr ["root"]) none
    [(md5hex hello, [["root", "a.txt"], ["root", "b.txt"]])] rfl).1⟩

/-- **C10**: `path_handler` returns a structured path unchanged, converts a
string `s` to `Path(s)`, and is therefore idempotent: re-applying it to any
of its successful results leaves the value fixed. -/
theorem c10_path_handler_idempotent (x y : PyVal) (p s : List String)
    (h : path_handler x = .ok y) :
    path_handler (.ppath p) = .ok (.ppath p) ∧
    path_handler (.pstr s) = .ok (.ppath s) ∧
    path_handler y = .ok y := by
  refine ⟨rfl, rfl, ?_⟩
  cases x with
  | ppath q => cases h; rfl
  | pstr q => cases h; rfl
  | plist xs => simp [path_handler] at h
  | pdict d2 => simp [path_handler] at h
  | pother => simp [path_handler] at h

theorem c10_witness :
    path_handler (.ppath ["a", "b"]) = .ok (.ppath ["a", "b"]) ∧
    path_handler (.pstr ["c"]) = .ok (.ppath ["c"]) ∧
    path_handler (.ppath ["a", "b"]) = .ok (.ppath ["a", "b"]) :=
  c10_path_handler_idempotent (.pstr ["a", "b"]) (.ppath ["a", "b"])
    ["a", "b"] ["c"] rfl

end Fsf
